import Mathlib

/-!
# The schema derivation pipeline of `pkg/serverlib/definition.go`

A shallow embedding of the fragment extractor (`prepareParameterCue`), the
reference injector (`appendCueReference`), the schema normaliser
(`fixOpenAPISchema`) and the orchestrator (`GetDefinition`), followed by the
properties established about them.

Conventions of the embedding:

* a Go `string` is the list of its characters; every pattern searched for is
  ASCII, so searching characters and searching UTF-8 bytes agree;
* a nil pointer is an explicit constructor, and dereferencing it is the
  outcome `none` (for the normaliser) or `Outcome.panic` (for the orchestrator);
* the file system is an explicit state threaded through the file operations;
  it also lists the calls into the operating system that fail, and every
  `return err` of the code is a branch of the model;
* the definition document is its text, and the line scanner is modelled with
  the limit of its buffer;
* library and out-of-package collaborators (path joining, the schema compiler,
  the swagger loader, the JSON serialiser, the reference template) are
  parameters.
-/

namespace Serverlib

/-- A Go `string`, as the list of its characters. -/
abbrev GoString := List Char

/-- A Go `[]byte`. -/
abbrev Bytes := List Nat

/-! ## Constants (definition.go, lines 19-26) -/

/-- The constant `OpenAPISchemaDir`, the folder name under the capability directory. -/
def OpenAPISchemaDir : GoString := "openapi".toList

/-- The constant `UsageTag`, the usage comment annotation. -/
def UsageTag : GoString := "+usage=".toList

/-- The constant `ShortTag`: a backslash, the letter n, then `+short`. -/
def ShortTag : GoString := "\\n+short".toList

/-! ## The two functions of package `strings` that the normaliser calls -/

/-- Go `strings.Contains(s, substr)`: `substr` occurs in `s` as a contiguous block. -/
def stringsContains (s substr : GoString) : Bool :=
  s.tails.any (fun t => substr.isPrefixOf t)

/-- The replacement loop of Go `strings.Replace` for a non-empty `old`: scan from
the left; at each position where `old` starts, emit `new` and jump over the
occurrence; otherwise copy one character. The counter is the number of
characters of the current occurrence still to be jumped over. -/
def replaceScan (old new : GoString) : Nat → GoString → GoString
  | _, [] => []
  | k + 1, _ :: cs => replaceScan old new k cs
  | 0, c :: cs =>
    if old.isPrefixOf (c :: cs) then new ++ replaceScan old new (old.length - 1) cs
    else c :: replaceScan old new 0 cs

/-- Go `strings.ReplaceAll(s, old, new)`: every non-overlapping occurrence of
`old`, found from the left, is replaced by `new`. As in Go, nothing happens
when `old == new`, and an empty `old` matches before every character and at
the end. -/
def stringsReplaceAll (s old new : GoString) : GoString :=
  if old = new then s
  else
    match old with
    | [] => new ++ s.flatMap (fun c => c :: new)
    | _ :: _ => replaceScan old new 0 s

/-! ## The compiled schema tree (`openapi3.Schema`, `openapi3.SchemaRef`) -/

mutual
/-- The fields of `openapi3.Schema` that the normaliser reads or writes:
`Type`, `Title`, `Description`, `Properties` and `Items`. An unset string field
is the empty string. -/
inductive Schema where
  | mk (type title description : GoString) (properties : Properties) (items : SchemaRef)
/-- A pointer `*openapi3.SchemaRef` together with its `Value` pointer: `nil` stands
for a nil reference or a reference whose `Value` is nil (both make the
normaliser dereference a nil pointer), `ref` for a reference to a schema. -/
inductive SchemaRef where
  | nil
  | ref (value : Schema)
/-- The map `Properties map[string]*SchemaRef`, as the sequence of its entries in
the order in which the `range` loop visits them. -/
inductive Properties where
  | nil
  | cons (key : GoString) (value : SchemaRef) (rest : Properties)
end

/-- Field `Type` of a schema. -/
def Schema.type : Schema → GoString
  | .mk t _ _ _ _ => t

/-- Field `Title` of a schema. -/
def Schema.title : Schema → GoString
  | .mk _ t _ _ _ => t

/-- Field `Description` of a schema. -/
def Schema.description : Schema → GoString
  | .mk _ _ d _ _ => d

/-- Field `Properties` of a schema. -/
def Schema.properties : Schema → Properties
  | .mk _ _ _ p _ => p

/-- Field `Items` of a schema. -/
def Schema.items : Schema → SchemaRef
  | .mk _ _ _ _ i => i

/-- The entries of a property map as a list of key and value pairs. -/
def Properties.toList : Properties → List (GoString × SchemaRef)
  | .nil => []
  | .cons k v rest => (k, v) :: rest.toList

/-! ## The schema normaliser (definition.go, lines 152-179) -/

/-- Lines 171-178 of `fixOpenAPISchema`: the new value of `schema.Description`
computed from its old value `line`. -/
def fixDescription (line : GoString) : GoString :=
  if stringsContains line UsageTag then
    let newDescription := stringsReplaceAll line UsageTag []
    if stringsContains newDescription ShortTag then
      stringsReplaceAll newDescription ShortTag []
    else newDescription
  else line

/-- The title after `if name != "" { schema.Title = name }`. -/
def fixTitle (name title : GoString) : GoString :=
  if name ≠ [] then name else title

mutual
/-- The function `fixOpenAPISchema(name, schema)`. The schema is mutated in place
in Go; here the mutated schema is returned. The result is `none` when the call
panics on a nil pointer. -/
def fixOpenAPISchema : GoString → Schema → Option Schema
  | name, .mk t title description properties items =>
    if t = "object".toList then
      match fixProperties properties with
      | none => none
      | some properties' =>
        some (.mk t title (fixDescription description) properties' items)
    else if t = "array".toList then
      match fixSchemaRef [] items with
      | none => none
      | some items' =>
        some (.mk t (fixTitle name title) (fixDescription description) properties items')
    else
      some (.mk t (fixTitle name title) (fixDescription description) properties items)
/-- A call `fixOpenAPISchema(name, ref.Value)`: it panics when `ref` or `ref.Value` is nil. -/
def fixSchemaRef : GoString → SchemaRef → Option SchemaRef
  | _, .nil => none
  | name, .ref s =>
    match fixOpenAPISchema name s with
    | none => none
    | some s' => some (.ref s')
/-- The loop `for k, v := range schema.Properties { fixOpenAPISchema(k, v.Value) }`. -/
def fixProperties : Properties → Option Properties
  | .nil => some .nil
  | .cons k v rest =>
    match fixSchemaRef k v with
    | none => none
    | some v' =>
      match fixProperties rest with
      | none => none
      | some rest' => some (.cons k v' rest')
end

/-! ## The fragment extractor (definition.go, lines 86-135) -/

/-- The character class `[[:space:]]` of Go regular expressions: tab, line feed,
vertical tab, form feed, carriage return and space. -/
def isSpace (c : Char) : Bool :=
  c = '\t' || c = '\n' || c = '\x0b' || c = '\x0c' || c = '\r' || c = ' '

/-- The literal `parameter:` of the regular expression. -/
def parameterKey : GoString := "parameter:".toList

/-- A match of `[[:space:]]*parameter:[[:space:]]*{.*` that starts at the
beginning of `s`: white space, the literal `parameter:`, white space, an
opening brace; `.*` then matches whatever follows (possibly nothing). Neither
the literal nor the brace starts with a space, so each starred class consumes
the whole run of spaces. -/
def matchAt (s : GoString) : Bool :=
  let s1 := s.dropWhile isSpace
  parameterKey.isPrefixOf s1 &&
    ((s1.drop parameterKey.length).dropWhile isSpace).head? == some '\x7b'

/-- The test `r.MatchString(text)` for the regular expression compiled at line
117. The expression has no anchor and `MatchString` reports whether the text
contains any match, so a match may start at every position. -/
def MatchString (text : GoString) : Bool :=
  text.tails.any matchAt

/-- Errors returned by this file: a failed `os` call on a path, or an error
built with `fmt.Errorf` from its message. -/
inductive GoError where
  | pathError (op path : GoString)
  | errorf (message : GoString)
  deriving DecidableEq

/-- The calls into the operating system whose failure the code acts on, by the
line of the call. `write n` is the call of `targetFile.WriteString` for the
line with index `n` of the scan, counted from 0. -/
inductive OsCall where
  /-- Line 88, `os.Stat(targetSchemaDir)`, failing with an error other than "does not exist". -/
  | statDir
  /-- Line 89, `os.Mkdir(targetSchemaDir, 0750)`. -/
  | mkdir
  /-- Line 102, `os.Stat(schemaFile)`, failing although the file exists. -/
  | statFile
  /-- Line 104, `os.Truncate(schemaFile, 0)`. -/
  | truncate
  /-- Line 108, `os.OpenFile(schemaFile, O_APPEND|O_WRONLY|O_CREATE, 0600)`. -/
  | openFile
  /-- Line 126, `targetFile.WriteString` for the line with the given index. -/
  | write (n : Nat)
  /-- Line 139, `os.OpenFile(cueFile, O_APPEND|O_WRONLY, 0600)` in `appendCueReference`. -/
  | appendOpen
  /-- Line 146, `f.WriteString(mycue.BaseTemplate)`. -/
  | appendWrite
  deriving DecidableEq

/-- The part of the file system that one derivation touches, and how the
operating system answers its calls.

* `source`: the text that reading the definition document at `cueFile`
  delivers, `none` when `os.Open` fails. The code never reads `scanner.Err()`,
  so a read that fails is to it the end of the file.
* `schemaDir`: whether the staging directory exists.
* `staged`: the content of the staged fragment at `schemaFile`, `none` when the
  file does not exist. It is a different file from the source.
* `faults`: the calls that fail, each with the error it returns; a call that is
  not listed succeeds.
* `partialWrite`: how many characters a failing `WriteString` has written when
  it fails. -/
structure FileSystem where
  source : Option GoString
  schemaDir : Bool
  staged : Option GoString
  faults : List (OsCall × GoError)
  partialWrite : Nat
  deriving DecidableEq

/-- The error with which the given call fails, `none` when it succeeds. -/
def FileSystem.failure (fs : FileSystem) (call : OsCall) : Option GoError :=
  fs.faults.lookup call

/-! ### The line scanner (`bufio.NewScanner`, `scanner.Scan`, `scanner.Text`) -/

/-- The constant `bufio.MaxScanTokenSize`, the largest buffer of a scanner. -/
def maxScanTokenSize : Nat := 64 * 1024

/-- The number of bytes of a text in UTF-8. -/
def byteLength : GoString → Nat
  | [] => 0
  | c :: cs => c.utf8Size + byteLength cs

/-- The text between the newlines of a document, as `bufio.ScanLines` cuts it: a
line ends at a line feed, which is not part of it, and the text after the last
line feed is a line when it is not empty. The first argument holds the
characters of the current line, last one first. -/
def rawLinesFrom : GoString → GoString → List GoString
  | acc, [] => if acc = [] then [] else [acc.reverse]
  | acc, c :: cs =>
    if c = '\n' then acc.reverse :: rawLinesFrom [] cs
    else rawLinesFrom (c :: acc) cs

/-- The raw lines of a document. -/
def rawLines (content : GoString) : List GoString :=
  rawLinesFrom [] content

/-- The function `dropCR` of package `bufio`: one trailing carriage return is dropped. -/
def dropCR (line : GoString) : GoString :=
  if line.getLast? = some '\r' then line.dropLast else line

/-- The lines of a document: its raw lines, each without a trailing carriage return. -/
def documentLines (content : GoString) : List GoString :=
  (rawLines content).map dropCR

/-- The texts that `scanner.Text()` yields over the calls of `scanner.Scan()` that
return true. The scanner holds the bytes of the current line in a buffer that
grows to `maxScanTokenSize` bytes at most; a line fits when it has fewer bytes
than that before its line feed (or before the end of the file). At the first
line that does not fit `Scan` returns false (with `ErrTooLong`, which the code
never reads) and the loop of lines 119-129 ends: that line and all later lines
are not seen. -/
def scannerLines (content : GoString) : List GoString :=
  ((rawLines content).takeWhile (fun l => decide (byteLength l < maxScanTokenSize))).map dropCR

/-- The error built at line 132. -/
def missingParameterError (cueFile : GoString) : GoError :=
  .errorf ("cue file ".toList ++ cueFile ++ " doesn't contain section `parmeter`".toList)

/-- The loop of lines 119-129 over the scanned lines, from the line with index
`n` on. The state is the content of the target file, which is opened for
appending, and `withParameterFlag`. The result is the error of a failed
`WriteString` (`none` when every write succeeds) with the final state. -/
def scanLoop (fs : FileSystem) :
    List GoString → Nat → GoString × Bool → Option GoError × GoString × Bool
  | [], _, st => (none, st)
  | text :: rest, n, (target, withParameterFlag) =>
    if MatchString text then
      match fs.failure (.write n) with
      | some err =>
        (some err,
          target ++ (("parameter: #parameter\n#".toList ++ text) ++ ['\n']).take fs.partialWrite,
          true)
      | none =>
        scanLoop fs rest (n + 1)
          (target ++ (("parameter: #parameter\n#".toList ++ text) ++ ['\n']), true)
    else
      match fs.failure (.write n) with
      | some err =>
        (some err, target ++ (text ++ ['\n']).take fs.partialWrite, withParameterFlag)
      | none =>
        scanLoop fs rest (n + 1) (target ++ (text ++ ['\n']), withParameterFlag)

/-- The function `prepareParameterCue(fileDir, fileName, targetSchemaDir)`: the
returned error (`none` for nil) and the file system it leaves. `join` is
`filepath.Join`. -/
def prepareParameterCue (join : List GoString → GoString) (fs : FileSystem)
    (fileDir fileName targetSchemaDir : GoString) : Option GoError × FileSystem :=
  -- lines 88-92: os.Stat(targetSchemaDir); os.Mkdir when it does not exist
  let made : Except GoError FileSystem :=
    match fs.failure .statDir with
    | some _ => .ok fs
    | none =>
      if fs.schemaDir then .ok fs
      else
        match fs.failure .mkdir with
        | some err => .error err
        | none => .ok { fs with schemaDir := true }
  match made with
  | .error err => (some err, fs)
  | .ok fs1 =>
    -- lines 94-98: os.Open(cueFile)
    let cueFile := join [fileDir, fileName]
    match fs1.source with
    | none => (some (.pathError "open".toList cueFile), fs1)
    | some content =>
      -- lines 101-107: os.Stat(schemaFile); os.Truncate(schemaFile, 0) when err == nil
      let schemaFile := join [targetSchemaDir, fileName]
      let truncated : Except GoError FileSystem :=
        match fs1.staged, fs1.failure .statFile with
        | some _, none =>
          match fs1.failure .truncate with
          | some err => .error err
          | none => .ok { fs1 with staged := some [] }
        | _, _ => .ok fs1
      match truncated with
      | .error err => (some err, fs1)
      | .ok fs2 =>
        -- lines 108-111: os.OpenFile with O_APPEND|O_WRONLY|O_CREATE
        let opened : Except GoError GoString :=
          match fs2.failure .openFile with
          | some err => .error err
          | none =>
            match fs2.staged with
            | some target => .ok target
            | none =>
              if fs2.schemaDir then .ok []
              else .error (.pathError "open".toList schemaFile)
        match opened with
        | .error err => (some err, fs2)
        | .ok target =>
          -- lines 115-129
          match scanLoop fs2 (scannerLines content) 0 (target, false) with
          | (some err, written, _) => (some err, { fs2 with staged := some written })
          | (none, written, withParameterFlag) =>
            -- lines 131-134
            if !withParameterFlag then
              (some (missingParameterError cueFile), { fs2 with staged := some written })
            else (none, { fs2 with staged := some written })

/-! ## The reference injector (definition.go, lines 137-150) -/

/-- The function `appendCueReference(cueFile)`, called on the path of the staged
fragment; `baseTemplate` is the constant `mycue.BaseTemplate`. Opening without
`O_CREATE` fails when the file does not exist. -/
def appendCueReference (baseTemplate : GoString) (fs : FileSystem) (cueFile : GoString) :
    Option GoError × FileSystem :=
  -- lines 139-142
  match fs.failure .appendOpen with
  | some err => (some err, fs)
  | none =>
    match fs.staged with
    | none => (some (.pathError "open".toList cueFile), fs)
    | some content =>
      -- lines 146-148
      match fs.failure .appendWrite with
      | some err =>
        (some err, { fs with staged := some (content ++ baseTemplate.take fs.partialWrite) })
      | none => (none, { fs with staged := some (content ++ baseTemplate) })

/-! ## The orchestrator (definition.go, lines 44-84) -/

/-- The parsed document `*openapi3.Swagger`: the map `Components.Schemas`. -/
structure Swagger where
  schemas : List (GoString × SchemaRef)

/-- The collaborators outside this file. -/
structure Collaborators where
  /-- The function `system.GetCapabilityDir()`. -/
  getCapabilityDir : Except GoError GoString
  /-- The function `filepath.Join`. -/
  join : List GoString → GoString
  /-- The function `filepath.FromSlash`. -/
  fromSlash : GoString → GoString
  /-- The constant `mycue.BaseTemplate`. -/
  baseTemplate : GoString
  /-- The function `common.GenOpenAPIFromFile(dir, filename)`, reading the file system. -/
  genOpenAPIFromFile : FileSystem → GoString → GoString → Except GoError Bytes
  /-- The method `openapi3.NewSwaggerLoader().LoadSwaggerFromData`. -/
  loadSwaggerFromData : Bytes → Except GoError Swagger
  /-- The method `schema.MarshalJSON()`. -/
  marshalJSON : Schema → Except GoError Bytes

/-- The function `generateOpenAPISchemaFromCapabilityParameter(name)`. -/
def generateOpenAPISchemaFromCapabilityParameter (c : Collaborators) (fs : FileSystem)
    (name : GoString) : Except GoError Bytes × FileSystem :=
  match c.getCapabilityDir with
  | .error err => (.error err, fs)
  | .ok dir =>
    let definitionCueName := name ++ ".cue".toList
    let schemaDir := c.join [dir, OpenAPISchemaDir]
    match prepareParameterCue c.join fs dir definitionCueName schemaDir with
    | (some err, fs1) => (.error err, fs1)
    | (none, fs1) =>
      match appendCueReference c.baseTemplate fs1
          (c.join [dir, OpenAPISchemaDir, definitionCueName]) with
      | (some err, fs2) => (.error err, fs2)
      | (none, fs2) =>
        let filename := c.fromSlash definitionCueName
        (c.genOpenAPIFromFile fs2 (c.join [dir, OpenAPISchemaDir]) filename, fs2)

/-- How a call of `GetDefinition` ends: it returns a value and a nil error, it
returns an error, or it panics. -/
inductive Outcome (α : Type) where
  | ok (value : α)
  | error (err : GoError)
  | panic

/-- The lookup `swagger.Components.Schemas["parameter"]`; a missing key gives the
nil reference. -/
def lookupParameter (swagger : Swagger) : SchemaRef :=
  match swagger.schemas.lookup "parameter".toList with
  | some ref => ref
  | none => .nil

/-- The function `GetDefinition(name)`. -/
def GetDefinition (c : Collaborators) (fs : FileSystem) (name : GoString) :
    Outcome Bytes × FileSystem :=
  match generateOpenAPISchemaFromCapabilityParameter c fs name with
  | (.error err, fs1) => (.error err, fs1)
  | (.ok openAPISchema, fs1) =>
    match c.loadSwaggerFromData openAPISchema with
    | .error err => (.error err, fs1)
    | .ok swagger =>
      -- lines 54-55: schemaRef.Value
      match lookupParameter swagger with
      | .nil => (.panic, fs1)
      | .ref schema =>
        -- line 56: fixOpenAPISchema("", schema)
        match fixOpenAPISchema [] schema with
        | none => (.panic, fs1)
        | some schema' =>
          -- lines 58-62
          match c.marshalJSON schema' with
          | .error err => (.error err, fs1)
          | .ok parameter => (.ok parameter, fs1)

/-! ## Definitions used to state the properties -/

mutual
/-- The descriptions of the nodes that `fixOpenAPISchema` visits in a schema: the
node itself, then the property values of an `object` node or the item schema of
an `array` node. -/
def visitedDescriptions : Schema → List GoString
  | .mk t _ description properties items =>
    if t = "object".toList then description :: visitedProperties properties
    else if t = "array".toList then description :: visitedSchemaRef items
    else [description]
/-- The descriptions visited below a reference. -/
def visitedSchemaRef : SchemaRef → List GoString
  | .nil => []
  | .ref s => visitedDescriptions s
/-- The descriptions visited below a property map. -/
def visitedProperties : Properties → List GoString
  | .nil => []
  | .cons _ v rest => visitedSchemaRef v ++ visitedProperties rest
end

mutual
/-- No nil pointer stands where `fixOpenAPISchema` dereferences one: every property
value of a visited `object` node and the item schema of every visited `array`
node is present. -/
def pointersPresent : Schema → Bool
  | .mk t _ _ properties items =>
    if t = "object".toList then propertiesPresent properties
    else if t = "array".toList then schemaRefPresent items
    else true
/-- The reference is not nil and the schema below it has its pointers present. -/
def schemaRefPresent : SchemaRef → Bool
  | .nil => false
  | .ref s => pointersPresent s
/-- Every value of the property map is present, with its pointers present. -/
def propertiesPresent : Properties → Bool
  | .nil => true
  | .cons _ v rest => schemaRefPresent v && propertiesPresent rest
end

/-- The text of a list of lines, each line followed by a newline. -/
def joinLines (ls : List GoString) : GoString :=
  ls.flatMap (fun l => l ++ ['\n'])

/-- The lines that the loop of lines 119-129 writes for the given scanned lines:
a line that the regular expression matches becomes the two lines
`parameter: #parameter` and `#` followed by the line, every other line is kept. -/
def rewriteMatched (doc : List GoString) : List GoString :=
  doc.flatMap (fun l =>
    if MatchString l then ["parameter: #parameter".toList, '#' :: l] else [l])

/-- The shape of a line that opens the parameter block, as the specification
words it: optional leading white space, `parameter:`, optional white space, an
opening brace, then anything. -/
def opensParameterBlock (line : GoString) : Bool :=
  let rest := line.dropWhile isSpace
  "parameter:".toList.isPrefixOf rest &&
    ((rest.drop "parameter:".toList.length).dropWhile isSpace).head? == some '\x7b'

/-- The lines of a document in which every line that opens the parameter block is
replaced by the two lines `parameter: #parameter` and `#` followed by the line. -/
def rewriteOpening (doc : List GoString) : List GoString :=
  doc.flatMap (fun l =>
    if opensParameterBlock l then ["parameter: #parameter".toList, '#' :: l] else [l])

/-- The lines of a document in which only the first line that opens the parameter
block is replaced by the two lines `parameter: #parameter` and `#` followed by
the line, as the specification words it. -/
def rewriteFirstLine : List GoString → List GoString
  | [] => []
  | l :: rest =>
    if opensParameterBlock l then "parameter: #parameter".toList :: ('#' :: l) :: rest
    else l :: rewriteFirstLine rest

/-- A stand-in for `filepath.Join` on clean relative parts: the parts separated by
a slash. -/
def slashJoin (parts : List GoString) : GoString :=
  ['/'].intercalate parts

/-- The pieces of text that the deletion pass of `replaceScan` keeps, in order:
the text before the first occurrence it finds, the texts between consecutive
occurrences, and the text after the last one. Deleting the occurrences joins
these pieces. -/
def scanPieces (old : GoString) : Nat → GoString → List GoString
  | _, [] => [[]]
  | k + 1, _ :: cs => scanPieces old k cs
  | 0, c :: cs =>
    if old.isPrefixOf (c :: cs) then [] :: scanPieces old (old.length - 1) cs
    else
      match scanPieces old 0 cs with
      | [] => [[c]]
      | q :: qs => (c :: q) :: qs

/-- Joining the pieces makes a new copy of the marker: the marker occurs in the
joined text although it occurs in none of the pieces. -/
def joinsInto (marker : GoString) (pieces : List GoString) : Bool :=
  stringsContains pieces.flatten marker && pieces.all (fun q => !stringsContains q marker)

/-- A scalar schema node of type `string` with the given description and nothing else set. -/
def describedNode (description : GoString) : Schema :=
  .mk "string".toList [] description .nil .nil

/-- An object schema with the properties `cmd` (a string) and `args` (an array of
strings), no titles set. -/
def cmdArgsSchema : Schema :=
  .mk "object".toList [] []
    (.cons "cmd".toList (.ref (.mk "string".toList [] "+usage=the command".toList .nil .nil))
      (.cons "args".toList
        (.ref (.mk "array".toList [] []
          .nil (.ref (.mk "string".toList [] [] .nil .nil))))
        .nil))
    .nil

/-- The schema `cmdArgsSchema` after normalisation. -/
def cmdArgsSchemaFixed : Schema :=
  .mk "object".toList [] []
    (.cons "cmd".toList (.ref (.mk "string".toList "cmd".toList "the command".toList .nil .nil))
      (.cons "args".toList
        (.ref (.mk "array".toList "args".toList []
          .nil (.ref (.mk "string".toList [] [] .nil .nil))))
        .nil))
    .nil

/-- What the normaliser does to one entry `e` of the property map of an object
node, `e'` being the entry afterwards: the key is kept, both values are
schemas, a child that is not an object and has a non-empty key gets the key
as title, and the item schema of an array child keeps its title. -/
def PropertyFixed (e e' : GoString × SchemaRef) : Prop :=
  e'.1 = e.1 ∧
    ∃ child child', e.2 = .ref child ∧ e'.2 = .ref child' ∧
      (child.type ≠ "object".toList → e.1 ≠ [] → child'.title = e.1) ∧
      (child.type = "array".toList →
        ∃ item item', child.items = .ref item ∧ child'.items = .ref item' ∧
          item'.title = item.title)

/-- Collaborators for the examples: the capability directory is `caps`, the
compiler returns no bytes, the loader returns the given document, and the
serialiser returns no bytes. -/
def sampleCollaborators (swagger : Swagger) : Collaborators where
  getCapabilityDir := .ok "caps".toList
  join := slashJoin
  fromSlash := id
  baseTemplate := "context: _\n".toList
  genOpenAPIFromFile := fun _ _ _ => .ok []
  loadSwaggerFromData := fun _ => .ok swagger
  marshalJSON := fun _ => .ok []

/-- A file system with the definition document of `webservice` and a staged
fragment left by an earlier derivation; every call succeeds. -/
def sampleFileSystem : FileSystem :=
  { source := some "parameter: \x7b image: string \x7d\n".toList,
    schemaDir := true,
    staged := some "parameter: #parameter\n#parameter: \x7b\x7d\ncontext: _\n".toList,
    faults := [],
    partialWrite := 0 }

/-- A file system in which the staged fragment exists with the given content and
cannot be truncated (`os.Truncate` fails, as on a file without write
permission); the definition document is the same whatever the staged content. -/
def readOnlyStaged (old : GoString) : FileSystem :=
  { source := some "parameter: \x7b image: string \x7d\n".toList,
    schemaDir := true,
    staged := some old,
    faults := [(.truncate, .pathError "truncate".toList "caps/openapi/webservice.cue".toList)],
    partialWrite := 0 }

/-! ## Auxiliary facts about the string functions -/

theorem stringsContains_iff (s sub : GoString) :
    stringsContains s sub = true ↔ sub <:+: s := by
  unfold stringsContains
  rw [List.any_eq_true, List.infix_iff_prefix_suffix]
  constructor
  · rintro ⟨t, ht, hp⟩
    exact ⟨t, List.isPrefixOf_iff_prefix.mp hp, (List.mem_tails _ _).mp ht⟩
  · rintro ⟨t, hp, ht⟩
    exact ⟨t, (List.mem_tails _ _).mpr ht, List.isPrefixOf_iff_prefix.mpr hp⟩

theorem stringsContains_eq_false_iff (s sub : GoString) :
    stringsContains s sub = false ↔ ¬ sub <:+: s := by
  rw [← stringsContains_iff, Bool.not_eq_true]

theorem replaceScan_skip (old new : GoString) (a s : GoString) :
    replaceScan old new a.length (a ++ s) = replaceScan old new 0 s := by
  induction a with
  | nil => rfl
  | cons x a ih => simpa [replaceScan] using ih

theorem replaceScan_hit (old new s : GoString) (h : old ≠ []) :
    replaceScan old new 0 (old ++ s) = new ++ replaceScan old new 0 s := by
  cases old with
  | nil => exact absurd rfl h
  | cons c t =>
    have hp : (c :: t).isPrefixOf (c :: (t ++ s)) = true :=
      List.isPrefixOf_iff_prefix.mpr (List.prefix_append (c :: t) s)
    have hs := replaceScan_skip (c :: t) new t s
    change replaceScan (c :: t) new 0 (c :: (t ++ s)) = _
    rw [replaceScan, if_pos hp, List.length_cons, Nat.add_sub_cancel, hs]

theorem replaceScan_miss (old new : GoString) (c : Char) (s : GoString)
    (h : old.isPrefixOf (c :: s) = false) :
    replaceScan old new 0 (c :: s) = c :: replaceScan old new 0 s := by
  simp [replaceScan, h]

theorem replaceScan_length_le (old : GoString) :
    ∀ (s : GoString) (k : Nat), (replaceScan old [] k s).length ≤ s.length := by
  intro s
  induction s with
  | nil => intro k; simp [replaceScan]
  | cons c cs ih =>
    intro k
    cases k with
    | succ k =>
      have := ih k
      simp only [replaceScan, List.length_cons]
      omega
    | zero =>
      by_cases hp : old.isPrefixOf (c :: cs) = true
      · have := ih (old.length - 1)
        simp only [replaceScan, hp, if_true, List.nil_append, List.length_cons]
        omega
      · have := ih 0
        simp only [replaceScan, hp, List.length_cons]
        simpa using this

theorem replaceScan_length_lt (old : GoString) (hold : old ≠ []) :
    ∀ s : GoString, old <:+: s → (replaceScan old [] 0 s).length < s.length := by
  intro s
  induction s with
  | nil =>
    intro h
    exact absurd (List.infix_nil.mp h) hold
  | cons c cs ih =>
    intro h
    by_cases hp : old.isPrefixOf (c :: cs) = true
    · have := replaceScan_length_le old cs (old.length - 1)
      simp only [replaceScan, hp, if_true, List.nil_append, List.length_cons]
      omega
    · have hin : old <:+: cs := by
        rcases List.infix_cons_iff.mp h with h1 | h1
        · exact absurd (List.isPrefixOf_iff_prefix.mpr h1) hp
        · exact h1
      have := ih hin
      simp only [replaceScan, hp, List.length_cons]
      simpa using this

theorem replaceScan_of_not_infix (old new : GoString) :
    ∀ s : GoString, ¬ old <:+: s → replaceScan old new 0 s = s := by
  intro s
  induction s with
  | nil => intro _; rfl
  | cons c cs ih =>
    intro h
    have hp : old.isPrefixOf (c :: cs) = false := by
      rw [Bool.eq_false_iff]
      intro hp
      exact h (List.isPrefixOf_iff_prefix.mp hp).isInfix
    have hin : ¬ old <:+: cs := fun h1 => h (List.infix_cons h1)
    rw [replaceScan_miss _ _ _ _ hp, ih hin]

theorem stringsReplaceAll_usage (s : GoString) :
    stringsReplaceAll s UsageTag [] = replaceScan UsageTag [] 0 s := rfl

theorem stringsReplaceAll_short (s : GoString) :
    stringsReplaceAll s ShortTag [] = replaceScan ShortTag [] 0 s := rfl

theorem usageTag_ne_nil : UsageTag ≠ [] := by decide

theorem shortTag_ne_nil : ShortTag ≠ [] := by decide

/-- With the usage marker present, the new description is the old one after one
left-to-right deletion pass for each of the two markers. -/
theorem fixDescription_of_contains (d : GoString)
    (h : stringsContains d UsageTag = true) :
    fixDescription d = replaceScan ShortTag [] 0 (replaceScan UsageTag [] 0 d) := by
  unfold fixDescription
  simp only [h, if_true, stringsReplaceAll_usage, stringsReplaceAll_short]
  by_cases hs : stringsContains (replaceScan UsageTag [] 0 d) ShortTag = true
  · simp [hs]
  · have hs' : ¬ ShortTag <:+: replaceScan UsageTag [] 0 d := by
      rwa [← stringsContains_iff]
    simp [hs, replaceScan_of_not_infix ShortTag [] _ hs']

theorem fixDescription_of_not_contains (d : GoString)
    (h : stringsContains d UsageTag = false) : fixDescription d = d := by
  simp [fixDescription, h]

theorem fixDescription_length_lt (d : GoString)
    (h : stringsContains d UsageTag = true) : (fixDescription d).length < d.length := by
  rw [fixDescription_of_contains d h]
  have h1 := replaceScan_length_lt UsageTag usageTag_ne_nil d ((stringsContains_iff _ _).mp h)
  have h2 := replaceScan_length_le ShortTag (replaceScan UsageTag [] 0 d) 0
  omega

theorem fixDescription_eq_self_iff (d : GoString) :
    fixDescription d = d ↔ stringsContains d UsageTag = false := by
  constructor
  · intro h
    by_contra hc
    rw [Bool.not_eq_false] at hc
    have := fixDescription_length_lt d hc
    rw [h] at this
    exact lt_irrefl _ this
  · exact fixDescription_of_not_contains d

theorem fixTitle_idem (name title : GoString) :
    fixTitle name (fixTitle name title) = fixTitle name title := by
  unfold fixTitle
  split <;> rfl

/-! ## Auxiliary facts about the normaliser -/

theorem fix_mk_object (n t ti d : GoString) (p : Properties) (i : SchemaRef)
    (h : t = "object".toList) :
    fixOpenAPISchema n (.mk t ti d p i) =
      (fixProperties p).map (fun p' => .mk t ti (fixDescription d) p' i) := by
  rw [fixOpenAPISchema, if_pos h]
  cases fixProperties p <;> rfl

theorem fix_mk_array (n t ti d : GoString) (p : Properties) (i : SchemaRef)
    (h1 : t ≠ "object".toList) (h2 : t = "array".toList) :
    fixOpenAPISchema n (.mk t ti d p i) =
      (fixSchemaRef [] i).map
        (fun i' => .mk t (fixTitle n ti) (fixDescription d) p i') := by
  rw [fixOpenAPISchema, if_neg h1, if_pos h2]
  cases fixSchemaRef [] i <;> rfl

theorem fix_mk_scalar (n t ti d : GoString) (p : Properties) (i : SchemaRef)
    (h1 : t ≠ "object".toList) (h2 : t ≠ "array".toList) :
    fixOpenAPISchema n (.mk t ti d p i) =
      some (.mk t (fixTitle n ti) (fixDescription d) p i) := by
  rw [fixOpenAPISchema, if_neg h1, if_neg h2]

theorem fixSchemaRef_ref (n : GoString) (s : Schema) :
    fixSchemaRef n (.ref s) = (fixOpenAPISchema n s).map SchemaRef.ref := by
  rw [fixSchemaRef]
  cases fixOpenAPISchema n s <;> rfl

theorem fixProperties_cons (k : GoString) (v : SchemaRef) (rest : Properties) :
    fixProperties (.cons k v rest) =
      (fixSchemaRef k v).bind (fun v' =>
        (fixProperties rest).map (fun rest' => Properties.cons k v' rest')) := by
  rw [fixProperties]
  cases fixSchemaRef k v with
  | none => rfl
  | some v' => cases fixProperties rest <;> rfl

mutual
theorem fix_again_schema : ∀ (s : Schema) (n : GoString) (s' : Schema),
    fixOpenAPISchema n s = some s' →
    (fixOpenAPISchema n s' = some s' ↔
      ∀ d ∈ visitedDescriptions s', stringsContains d UsageTag = false)
  | .mk t ti d p i, n, s', h => by
    by_cases ho : t = "object".toList
    · rw [fix_mk_object _ _ _ _ _ _ ho] at h
      obtain ⟨p', hp', rfl⟩ := Option.map_eq_some'.mp h
      have ih := fix_again_properties p p' hp'
      rw [fix_mk_object _ _ _ _ _ _ ho]
      simp only [visitedDescriptions, if_pos ho, List.mem_cons, forall_eq_or_imp,
        Option.map_eq_some', Schema.mk.injEq, true_and, and_true,
        fixDescription_eq_self_iff]
      constructor
      · rintro ⟨p'', hp'', hd, rfl⟩
        exact ⟨hd, ih.mp hp''⟩
      · rintro ⟨hd, hv⟩
        exact ⟨p', ih.mpr hv, hd, rfl⟩
    · by_cases ha : t = "array".toList
      · rw [fix_mk_array _ _ _ _ _ _ ho ha] at h
        obtain ⟨i', hi', rfl⟩ := Option.map_eq_some'.mp h
        have ih := fix_again_schemaRef i [] i' hi'
        rw [fix_mk_array _ _ _ _ _ _ ho ha]
        simp only [visitedDescriptions, if_neg ho, if_pos ha, List.mem_cons,
          forall_eq_or_imp, Option.map_eq_some', Schema.mk.injEq, true_and, and_true,
          fixDescription_eq_self_iff, fixTitle_idem]
        constructor
        · rintro ⟨i'', hi'', hd, rfl⟩
          exact ⟨hd, ih.mp hi''⟩
        · rintro ⟨hd, hv⟩
          exact ⟨i', ih.mpr hv, hd, rfl⟩
      · rw [fix_mk_scalar _ _ _ _ _ _ ho ha] at h
        obtain rfl := Option.some.inj h
        rw [fix_mk_scalar _ _ _ _ _ _ ho ha]
        simp only [visitedDescriptions, if_neg ho, if_neg ha, List.mem_singleton,
          forall_eq, Option.some.injEq, Schema.mk.injEq, true_and, and_true,
          fixDescription_eq_self_iff, fixTitle_idem]
theorem fix_again_schemaRef : ∀ (r : SchemaRef) (n : GoString) (r' : SchemaRef),
    fixSchemaRef n r = some r' →
    (fixSchemaRef n r' = some r' ↔
      ∀ d ∈ visitedSchemaRef r', stringsContains d UsageTag = false)
  | .nil, n, r', h => by simp [fixSchemaRef] at h
  | .ref s, n, r', h => by
    rw [fixSchemaRef_ref] at h
    obtain ⟨s', hs', rfl⟩ := Option.map_eq_some'.mp h
    have ih := fix_again_schema s n s' hs'
    rw [fixSchemaRef_ref]
    simp only [visitedSchemaRef, Option.map_eq_some', SchemaRef.ref.injEq]
    constructor
    · rintro ⟨s'', hs'', rfl⟩
      exact ih.mp hs''
    · intro hv
      exact ⟨s', ih.mpr hv, rfl⟩
theorem fix_again_properties : ∀ (p p' : Properties),
    fixProperties p = some p' →
    (fixProperties p' = some p' ↔
      ∀ d ∈ visitedProperties p', stringsContains d UsageTag = false)
  | .nil, p', h => by
    simp only [fixProperties, Option.some.injEq] at h
    subst h
    simp [fixProperties, visitedProperties]
  | .cons k v rest, p', h => by
    rw [fixProperties_cons] at h
    obtain ⟨v', hv', h2⟩ := Option.bind_eq_some.mp h
    obtain ⟨rest', hrest', rfl⟩ := Option.map_eq_some'.mp h2
    have ih1 := fix_again_schemaRef v k v' hv'
    have ih2 := fix_again_properties rest rest' hrest'
    rw [fixProperties_cons]
    simp only [visitedProperties, List.mem_append, Option.bind_eq_some,
      Option.map_eq_some', Properties.cons.injEq, true_and]
    constructor
    · rintro ⟨v'', hv'', rest'', hrest'', rfl, rfl⟩
      intro d hd
      rcases hd with hd | hd
      · exact ih1.mp hv'' d hd
      · exact ih2.mp hrest'' d hd
    · intro hv
      exact ⟨v', ih1.mpr (fun d hd => hv d (Or.inl hd)), rest',
        ih2.mpr (fun d hd => hv d (Or.inr hd)), rfl, rfl⟩
end

/-- The fields of a schema after one successful call of the normaliser. -/
theorem fix_fields (n : GoString) (s s' : Schema) (h : fixOpenAPISchema n s = some s') :
    s'.type = s.type ∧ s'.description = fixDescription s.description ∧
      (s.type ≠ "object".toList → s'.title = fixTitle n s.title) ∧
      (s.type = "object".toList → s'.title = s.title) := by
  obtain ⟨t, ti, d, p, i⟩ := s
  by_cases ho : t = "object".toList
  · rw [fix_mk_object _ _ _ _ _ _ ho] at h
    obtain ⟨p', _, rfl⟩ := Option.map_eq_some'.mp h
    exact ⟨rfl, rfl, fun hne => absurd ho hne, fun _ => rfl⟩
  · by_cases ha : t = "array".toList
    · rw [fix_mk_array _ _ _ _ _ _ ho ha] at h
      obtain ⟨i', _, rfl⟩ := Option.map_eq_some'.mp h
      exact ⟨rfl, rfl, fun _ => rfl, fun he => absurd he ho⟩
    · rw [fix_mk_scalar _ _ _ _ _ _ ho ha] at h
      obtain rfl := Option.some.inj h
      exact ⟨rfl, rfl, fun _ => rfl, fun he => absurd he ho⟩

/-- A call with the empty inherited name leaves the title of the node alone. -/
theorem fix_title_of_empty_name (s s' : Schema) (h : fixOpenAPISchema [] s = some s') :
    s'.title = s.title := by
  obtain ⟨_, _, h3, h4⟩ := fix_fields [] s s' h
  by_cases ho : s.type = "object".toList
  · exact h4 ho
  · rw [h3 ho]
    simp [fixTitle]

/-- The item schema of an array node after a successful call. -/
theorem fix_items_of_array (n : GoString) (s s' : Schema)
    (ha : s.type = "array".toList) (h : fixOpenAPISchema n s = some s') :
    ∃ item item', s.items = .ref item ∧ s'.items = .ref item' ∧
      fixOpenAPISchema [] item = some item' := by
  obtain ⟨t, ti, d, p, i⟩ := s
  have ha' : t = "array".toList := ha
  have ho : t ≠ "object".toList := by
    rw [ha']
    decide
  rw [fix_mk_array _ _ _ _ _ _ ho ha'] at h
  obtain ⟨i', hi', rfl⟩ := Option.map_eq_some'.mp h
  cases i with
  | nil => simp [fixSchemaRef] at hi'
  | ref item =>
    rw [fixSchemaRef_ref] at hi'
    obtain ⟨item', hitem, rfl⟩ := Option.map_eq_some'.mp hi'
    exact ⟨item, item', rfl, rfl, hitem⟩

/-- The entries of a property map after a successful pass of the loop: the keys
are kept, in the same order, and each value is the result of the call made with
its key. -/
theorem fixProperties_forall₂ : ∀ (p p' : Properties), fixProperties p = some p' →
    List.Forall₂ (fun (e e' : GoString × SchemaRef) =>
        e'.1 = e.1 ∧ fixSchemaRef e.1 e.2 = some e'.2) p.toList p'.toList
  | .nil, p', h => by
    simp only [fixProperties, Option.some.injEq] at h
    subst h
    exact List.Forall₂.nil
  | .cons k v rest, p', h => by
    rw [fixProperties_cons] at h
    obtain ⟨v', hv', h2⟩ := Option.bind_eq_some.mp h
    obtain ⟨rest', hrest', rfl⟩ := Option.map_eq_some'.mp h2
    exact List.Forall₂.cons ⟨rfl, hv'⟩ (fixProperties_forall₂ rest rest' hrest')

/-- The property map of an object node after a successful call. -/
theorem fix_properties_of_object (n : GoString) (s s' : Schema)
    (ho : s.type = "object".toList) (h : fixOpenAPISchema n s = some s') :
    fixProperties s.properties = some s'.properties := by
  obtain ⟨t, ti, d, p, i⟩ := s
  have ho' : t = "object".toList := ho
  rw [fix_mk_object _ _ _ _ _ _ ho'] at h
  obtain ⟨p', hp', rfl⟩ := Option.map_eq_some'.mp h
  exact hp'

theorem usageTag_eq : UsageTag = ['+', 'u', 's', 'a', 'g', 'e', '='] := rfl

theorem shortTag_eq : ShortTag = ['\\', 'n', '+', 's', 'h', 'o', 'r', 't'] := rfl

mutual
/-- The call completes exactly on the trees that have a schema wherever the
normaliser dereferences a pointer; on those it terminates with a result. -/
theorem fix_isSome_schema : ∀ (s : Schema) (n : GoString),
    (fixOpenAPISchema n s).isSome = pointersPresent s
  | .mk t ti d p i, n => by
    by_cases ho : t = "object".toList
    · rw [fix_mk_object _ _ _ _ _ _ ho, Option.isSome_map', pointersPresent, if_pos ho]
      exact fix_isSome_properties p
    · by_cases ha : t = "array".toList
      · rw [fix_mk_array _ _ _ _ _ _ ho ha, Option.isSome_map', pointersPresent,
          if_neg ho, if_pos ha]
        exact fix_isSome_schemaRef i []
      · rw [fix_mk_scalar _ _ _ _ _ _ ho ha, pointersPresent, if_neg ho, if_neg ha]
        rfl
theorem fix_isSome_schemaRef : ∀ (r : SchemaRef) (n : GoString),
    (fixSchemaRef n r).isSome = schemaRefPresent r
  | .nil, n => by simp [fixSchemaRef, schemaRefPresent]
  | .ref s, n => by
    rw [fixSchemaRef_ref, Option.isSome_map', schemaRefPresent]
    exact fix_isSome_schema s n
theorem fix_isSome_properties : ∀ (p : Properties),
    (fixProperties p).isSome = propertiesPresent p
  | .nil => by simp [fixProperties, propertiesPresent]
  | .cons k v rest => by
    have h1 := fix_isSome_schemaRef v k
    have h2 := fix_isSome_properties rest
    rw [fixProperties_cons, propertiesPresent, ← h1, ← h2]
    cases fixSchemaRef k v with
    | none => rfl
    | some v' => cases fixProperties rest <;> rfl
end

/-! ## Auxiliary facts about the pieces a deletion pass keeps -/

theorem scanPieces_flatten (old : GoString) :
    ∀ (d : GoString) (k : Nat), (scanPieces old k d).flatten = replaceScan old [] k d := by
  intro d
  induction d with
  | nil => intro k; simp [scanPieces, replaceScan]
  | cons c cs ih =>
    intro k
    cases k with
    | succ k => simpa [scanPieces, replaceScan] using ih k
    | zero =>
      by_cases hp : old.isPrefixOf (c :: cs) = true
      · simpa [scanPieces, replaceScan, hp] using ih (old.length - 1)
      · have h0 := ih 0
        rw [scanPieces, if_neg hp, replaceScan, if_neg hp, ← h0]
        cases scanPieces old 0 cs with
        | nil => rfl
        | cons q qs => rfl

/-- The first piece is the text before the first occurrence: it starts the text. -/
theorem scanPieces_head (old : GoString) :
    ∀ d : GoString, ∃ q qs, scanPieces old 0 d = q :: qs ∧ q <+: d := by
  intro d
  induction d with
  | nil => exact ⟨[], [], rfl, List.prefix_refl _⟩
  | cons c cs ih =>
    by_cases hp : old.isPrefixOf (c :: cs) = true
    · exact ⟨[], scanPieces old (old.length - 1) cs, by rw [scanPieces, if_pos hp],
        List.nil_prefix⟩
    · obtain ⟨q, qs, hq, hpre⟩ := ih
      refine ⟨c :: q, qs, by rw [scanPieces, if_neg hp, hq], ?_⟩
      exact List.cons_prefix_cons.mpr ⟨rfl, hpre⟩

/-- Every piece is a block of the text. -/
theorem scanPieces_infix (old : GoString) :
    ∀ (d : GoString) (k : Nat), ∀ q ∈ scanPieces old k d, q <:+: d := by
  intro d
  induction d with
  | nil =>
    intro k q hq
    simp only [scanPieces, List.mem_singleton] at hq
    rw [hq]
  | cons c cs ih =>
    intro k q hq
    cases k with
    | succ k =>
      simp only [scanPieces] at hq
      exact List.infix_cons (ih k q hq)
    | zero =>
      by_cases hp : old.isPrefixOf (c :: cs) = true
      · rw [scanPieces, if_pos hp] at hq
        rcases List.mem_cons.mp hq with rfl | hq
        · exact List.nil_infix
        · exact List.infix_cons (ih _ q hq)
      · obtain ⟨q0, qs, he, hpre⟩ := scanPieces_head old cs
        have hmem := ih 0
        rw [he] at hmem
        rw [scanPieces, if_neg hp, he] at hq
        rcases List.mem_cons.mp hq with rfl | hq
        · exact (List.cons_prefix_cons.mpr ⟨rfl, hpre⟩).isInfix
        · exact List.infix_cons (hmem q (List.mem_cons_of_mem _ hq))

/-- No piece contains the text that the pass deletes. -/
theorem scanPieces_free (old : GoString) :
    ∀ (d : GoString) (k : Nat), ∀ q ∈ scanPieces old k d, old ≠ [] → ¬ old <:+: q := by
  intro d
  induction d with
  | nil =>
    intro k q hq hne hin
    simp only [scanPieces, List.mem_singleton] at hq
    rw [hq] at hin
    exact hne (List.infix_nil.mp hin)
  | cons c cs ih =>
    intro k q hq hne
    cases k with
    | succ k =>
      simp only [scanPieces] at hq
      exact ih k q hq hne
    | zero =>
      by_cases hp : old.isPrefixOf (c :: cs) = true
      · rw [scanPieces, if_pos hp] at hq
        rcases List.mem_cons.mp hq with rfl | hq
        · intro hin
          exact hne (List.infix_nil.mp hin)
        · exact ih _ q hq hne
      · obtain ⟨q0, qs, he, hpre⟩ := scanPieces_head old cs
        have hmem := ih 0
        rw [he] at hmem
        rw [scanPieces, if_neg hp, he] at hq
        rcases List.mem_cons.mp hq with rfl | hq
        · intro hin
          rcases List.infix_cons_iff.mp hin with h1 | h1
          · have : old <+: c :: cs := h1.trans (List.cons_prefix_cons.mpr ⟨rfl, hpre⟩)
            exact hp (List.isPrefixOf_iff_prefix.mpr this)
          · exact hmem q0 (List.mem_cons_self _ _) hne h1
        · exact hmem q (List.mem_cons_of_mem _ hq) hne

/-- A copy of the usage marker does not start inside a copy of `ShortTag`. -/
theorem usage_infix_of_short_append (rest : GoString) (h : UsageTag <:+: ShortTag ++ rest) :
    UsageTag <:+: rest := by
  rw [shortTag_eq, usageTag_eq] at *
  simpa [List.infix_cons_iff, List.cons_prefix_cons] using h

/-- The deletion pass for `ShortTag` copies a copy of the usage marker unchanged. -/
theorem replaceScan_short_over_usage (s : GoString) :
    replaceScan ShortTag [] 0 (UsageTag ++ s) = UsageTag ++ replaceScan ShortTag [] 0 s := by
  rw [shortTag_eq, usageTag_eq]
  simp [replaceScan, List.isPrefixOf]

/-- The deletion pass for `ShortTag` destroys no copy of the usage marker. -/
theorem usage_infix_replaceScan_short :
    ∀ (x : GoString) (k : Nat), UsageTag <:+: x.drop k →
      UsageTag <:+: replaceScan ShortTag [] k x := by
  intro x
  induction x with
  | nil =>
    intro k h
    simp only [List.drop_nil] at h
    exact absurd (List.infix_nil.mp h) usageTag_ne_nil
  | cons c cs ih =>
    intro k h
    cases k with
    | succ k =>
      simp only [List.drop_succ_cons] at h
      simpa [replaceScan] using ih k h
    | zero =>
      simp only [List.drop_zero] at h
      by_cases hp : ShortTag.isPrefixOf (c :: cs) = true
      · obtain ⟨rest, hr⟩ := List.isPrefixOf_iff_prefix.mp hp
        have h1 : UsageTag <:+: rest := usage_infix_of_short_append rest (hr ▸ h)
        have hcs : cs.drop (ShortTag.length - 1) = rest := by
          rw [shortTag_eq] at hr ⊢
          simp only [List.cons_append, List.cons.injEq] at hr
          rw [← hr.2]
          rfl
        have := ih (ShortTag.length - 1) (hcs ▸ h1)
        simpa [replaceScan, hp] using this
      · rcases List.infix_cons_iff.mp h with h1 | h1
        · obtain ⟨rest, hr⟩ := h1
          rw [← hr, replaceScan_short_over_usage]
          exact (List.prefix_append _ _).isInfix
        · have := ih 0 (by simpa using h1)
          rw [replaceScan_miss _ _ _ _ (Bool.eq_false_iff.mpr hp)]
          exact List.infix_cons this

/-- Whether joining the pieces kept by a pass makes a copy of the text the pass
deletes: exactly when the result of the pass contains that text. -/
theorem joinsInto_deleted (old d : GoString) (hne : old ≠ []) :
    joinsInto old (scanPieces old 0 d) = stringsContains (replaceScan old [] 0 d) old := by
  unfold joinsInto
  rw [scanPieces_flatten]
  have hall : (scanPieces old 0 d).all (fun q => !stringsContains q old) = true := by
    rw [List.all_eq_true]
    intro q hq
    have := scanPieces_free old d 0 q hq hne
    rw [← stringsContains_eq_false_iff] at this
    simp [this]
  rw [hall, Bool.and_true]

/-- The description of a node that contains the usage marker, after the call:
it contains neither marker exactly when neither deletion pass joins the pieces
it keeps into a new marker. -/
theorem fixDescription_clean_iff (d : GoString) :
    (stringsContains (replaceScan ShortTag [] 0 (replaceScan UsageTag [] 0 d)) UsageTag = false ∧
      stringsContains (replaceScan ShortTag [] 0 (replaceScan UsageTag [] 0 d)) ShortTag = false) ↔
    (joinsInto UsageTag (scanPieces UsageTag 0 d) = false ∧
      joinsInto UsageTag (scanPieces ShortTag 0 (replaceScan UsageTag [] 0 d)) = false ∧
      joinsInto ShortTag (scanPieces ShortTag 0 (replaceScan UsageTag [] 0 d)) = false) := by
  rw [joinsInto_deleted UsageTag d usageTag_ne_nil,
    joinsInto_deleted ShortTag _ shortTag_ne_nil]
  constructor
  · rintro ⟨hu, hs⟩
    refine ⟨?_, ?_, hs⟩
    · rw [stringsContains_eq_false_iff] at hu ⊢
      intro h1
      exact hu (usage_infix_replaceScan_short _ 0 (by simpa using h1))
    · unfold joinsInto
      rw [scanPieces_flatten, hu, Bool.false_and]
  · rintro ⟨h1, h2, hs⟩
    refine ⟨?_, hs⟩
    by_contra hc
    rw [Bool.not_eq_false] at hc
    unfold joinsInto at h2
    rw [scanPieces_flatten, hc, Bool.true_and] at h2
    have : ∃ q ∈ scanPieces ShortTag 0 (replaceScan UsageTag [] 0 d),
        stringsContains q UsageTag = true := by
      by_contra hno
      push_neg at hno
      have hall : (scanPieces ShortTag 0 (replaceScan UsageTag [] 0 d)).all
          (fun q => !stringsContains q UsageTag) = true := by
        rw [List.all_eq_true]
        intro q hq
        have := hno q hq
        simp [this]
      rw [hall] at h2
      exact Bool.noConfusion h2
    obtain ⟨q, hq, hqu⟩ := this
    have hin := scanPieces_infix ShortTag _ 0 q hq
    rw [stringsContains_eq_false_iff] at h1
    exact h1 (((stringsContains_iff _ _).mp hqu).trans hin)

/-! ## Auxiliary facts about the fragment extractor -/

theorem failure_of_no_faults (fs : FileSystem) (hio : fs.faults = []) (call : OsCall) :
    fs.failure call = none := by
  simp [FileSystem.failure, hio]

theorem scanLoop_eq (fs : FileSystem) (hio : fs.faults = []) (doc : List GoString) :
    ∀ (n : Nat) (target : GoString) (flag : Bool),
      scanLoop fs doc n (target, flag) =
        (none, target ++ joinLines (rewriteMatched doc), flag || doc.any MatchString) := by
  induction doc with
  | nil =>
    intro n target flag
    simp [scanLoop, joinLines, rewriteMatched]
  | cons l rest ih =>
    intro n target flag
    by_cases hm : MatchString l = true
    · rw [scanLoop, if_pos hm, failure_of_no_faults fs hio]
      simp only []
      rw [ih]
      simp [joinLines, rewriteMatched, hm]
    · rw [scanLoop, if_neg hm, failure_of_no_faults fs hio]
      simp only []
      rw [ih]
      simp [joinLines, rewriteMatched, hm]

/-- The outcome of `prepareParameterCue` when the source can be opened and no
call fails. -/
theorem prepareParameterCue_eq (join : List GoString → GoString) (fs : FileSystem)
    (fileDir fileName targetSchemaDir : GoString) (content : GoString)
    (hsrc : fs.source = some content) (hio : fs.faults = []) :
    prepareParameterCue join fs fileDir fileName targetSchemaDir =
      (if (scannerLines content).any MatchString then none
        else some (missingParameterError (join [fileDir, fileName])),
       { source := some content, schemaDir := true,
         staged := some (joinLines (rewriteMatched (scannerLines content))),
         faults := [], partialWrite := fs.partialWrite }) := by
  obtain ⟨src, dir, staged, faults, pw⟩ := fs
  simp only at hsrc hio
  subst hsrc hio
  cases hany : (scannerLines content).any MatchString <;> cases dir <;> cases staged <;>
    simp [prepareParameterCue, FileSystem.failure, scanLoop_eq, hany]

theorem scannerLines_eq_documentLines (content : GoString)
    (hshort : ∀ l ∈ rawLines content, byteLength l < maxScanTokenSize) :
    scannerLines content = documentLines content := by
  unfold scannerLines documentLines
  rw [List.takeWhile_eq_self_iff.mpr]
  intro l hl
  exact decide_eq_true (hshort l hl)

theorem mem_documentLines_of_mem_scannerLines (content l : GoString)
    (h : l ∈ scannerLines content) : l ∈ documentLines content := by
  unfold scannerLines at h
  unfold documentLines
  obtain ⟨r, hr, rfl⟩ := List.mem_map.mp h
  exact List.mem_map.mpr ⟨r, (List.takeWhile_sublist _).subset hr, rfl⟩

theorem opensParameterBlock_eq_matchAt (l : GoString) : opensParameterBlock l = matchAt l :=
  rfl

theorem matchString_of_opens (l : GoString) (h : opensParameterBlock l = true) :
    MatchString l = true := by
  unfold MatchString
  rw [List.any_eq_true]
  exact ⟨l, (List.mem_tails _ _).mpr (List.suffix_refl l), h⟩

theorem rewriteMatched_eq_rewriteOpening (doc : List GoString)
    (h : ∀ l ∈ doc, MatchString l = true → opensParameterBlock l = true) :
    rewriteMatched doc = rewriteOpening doc := by
  induction doc with
  | nil => rfl
  | cons l rest ih =>
    have hl : MatchString l = opensParameterBlock l := by
      by_cases ho : opensParameterBlock l = true
      · rw [ho, matchString_of_opens l ho]
      · by_cases hm : MatchString l = true
        · exact absurd (h l (List.mem_cons_self _ _) hm) ho
        · rw [Bool.not_eq_true] at ho hm
          rw [ho, hm]
    have hrest := ih (fun x hx => h x (List.mem_cons_of_mem _ hx))
    unfold rewriteMatched rewriteOpening at hrest ⊢
    simp only [List.flatMap_cons, hl, hrest]

theorem rawLinesFrom_line (l : GoString) (hl : '\n' ∉ l) :
    ∀ (acc rest : GoString),
      rawLinesFrom acc (l ++ '\n' :: rest) = (acc.reverse ++ l) :: rawLinesFrom [] rest := by
  induction l with
  | nil =>
    intro acc rest
    simp [rawLinesFrom]
  | cons c cs ih =>
    intro acc rest
    have hc : c ≠ '\n' := fun h => hl (h ▸ List.mem_cons_self _ _)
    have hcs : '\n' ∉ cs := fun h => hl (List.mem_cons_of_mem _ h)
    rw [List.cons_append, rawLinesFrom, if_neg hc, ih hcs]
    simp

/-- A text written line by line is cut back into those lines. -/
theorem rawLines_joinLines (doc : List GoString) (h : ∀ l ∈ doc, '\n' ∉ l) :
    rawLines (joinLines doc) = doc := by
  induction doc with
  | nil => rfl
  | cons l rest ih =>
    have hrest := ih (fun x hx => h x (List.mem_cons_of_mem _ hx))
    unfold rawLines joinLines at hrest ⊢
    simp only [List.flatMap_cons, List.append_assoc, List.singleton_append]
    rw [rawLinesFrom_line l (h l (List.mem_cons_self _ _)), hrest]
    simp

/-- The lines of a text written line by line are those lines, when none of them
contains a line feed or ends with a carriage return. -/
theorem documentLines_joinLines (doc : List GoString) (h : ∀ l ∈ doc, '\n' ∉ l)
    (hcr : ∀ l ∈ doc, l.getLast? ≠ some '\r') :
    documentLines (joinLines doc) = doc := by
  unfold documentLines
  rw [rawLines_joinLines doc h]
  have : ∀ l ∈ doc, dropCR l = l := by
    intro l hl
    unfold dropCR
    rw [if_neg (hcr l hl)]
  rw [List.map_congr_left this, List.map_id']

theorem parameterKey_infix_of_matchString (l : GoString) (h : MatchString l = true) :
    parameterKey <:+: l := by
  unfold MatchString at h
  rw [List.any_eq_true] at h
  obtain ⟨t, ht, hm⟩ := h
  unfold matchAt at hm
  simp only [Bool.and_eq_true] at hm
  have h1 : parameterKey <+: t.dropWhile isSpace := List.isPrefixOf_iff_prefix.mp hm.1
  have h2 : t.dropWhile isSpace <:+ t := List.dropWhile_suffix _
  have h3 : t <:+ l := (List.mem_tails _ _).mp ht
  exact h1.isInfix.trans (h2.trans h3).isInfix

theorem dropWhile_append_of_all (p : Char → Bool) (ws rest : GoString)
    (h : ∀ c ∈ ws, p c = true) : (ws ++ rest).dropWhile p = rest.dropWhile p := by
  induction ws with
  | nil => rfl
  | cons c ws ih =>
    have hc : p c = true := h c (List.mem_cons_self _ _)
    have := ih (fun x hx => h x (List.mem_cons_of_mem _ hx))
    simp [List.dropWhile, hc, this]

/-- The lines the regular expression accepts: somewhere in the line stands
`parameter:`, then white space only, then an opening brace. Nothing is required
of the text before `parameter:`. -/
theorem matchString_iff (l : GoString) :
    MatchString l = true ↔
      ∃ pre ws post : GoString, (∀ c ∈ ws, isSpace c = true) ∧
        l = pre ++ (parameterKey ++ (ws ++ '\x7b' :: post)) := by
  constructor
  · intro h
    unfold MatchString at h
    rw [List.any_eq_true] at h
    obtain ⟨t, ht, hm⟩ := h
    obtain ⟨pre0, rfl⟩ := (List.mem_tails _ _).mp ht
    unfold matchAt at hm
    simp only [Bool.and_eq_true, beq_iff_eq] at hm
    obtain ⟨r, hr⟩ := List.isPrefixOf_iff_prefix.mp hm.1
    have hdrop : (t.dropWhile isSpace).drop parameterKey.length = r := by
      rw [← hr, List.drop_left]
    rw [hdrop] at hm
    obtain ⟨post, hpost⟩ : ∃ post, r.dropWhile isSpace = '\x7b' :: post := by
      cases hq : r.dropWhile isSpace with
      | nil => rw [hq] at hm; simp at hm
      | cons x post =>
        rw [hq] at hm
        simp only [List.head?_cons, Option.some.injEq] at hm
        exact ⟨post, by rw [hm.2]⟩
    refine ⟨pre0 ++ t.takeWhile isSpace, r.takeWhile isSpace, post, ?_, ?_⟩
    · intro c hc
      exact List.mem_takeWhile_imp hc
    · have e1 : t = t.takeWhile isSpace ++ t.dropWhile isSpace :=
        (List.takeWhile_append_dropWhile _ _).symm
      have e2 : r = r.takeWhile isSpace ++ r.dropWhile isSpace :=
        (List.takeWhile_append_dropWhile _ _).symm
      rw [← hpost, ← e2, hr, List.append_assoc, ← e1]
  · rintro ⟨pre, ws, post, hws, rfl⟩
    unfold MatchString
    rw [List.any_eq_true]
    refine ⟨parameterKey ++ (ws ++ '\x7b' :: post), ?_, ?_⟩
    · exact (List.mem_tails _ _).mpr (List.suffix_append _ _)
    · have hk : (parameterKey ++ (ws ++ '\x7b' :: post)).dropWhile isSpace =
          parameterKey ++ (ws ++ '\x7b' :: post) := rfl
      unfold matchAt
      simp only [hk, Bool.and_eq_true, beq_iff_eq]
      refine ⟨List.isPrefixOf_iff_prefix.mpr (List.prefix_append _ _), ?_⟩
      rw [List.drop_left, dropWhile_append_of_all isSpace ws _ hws]
      rfl

/-- A first line of 65536 bytes or more ends the scan at once: no line is seen. -/
theorem scannerLines_long_first_line (l rest : GoString) (hl : '\n' ∉ l)
    (hlong : maxScanTokenSize ≤ byteLength l) : scannerLines (l ++ '\n' :: rest) = [] := by
  unfold scannerLines rawLines
  rw [rawLinesFrom_line l hl]
  have : decide (byteLength ([].reverse ++ l) < maxScanTokenSize) = false := by
    simp only [List.reverse_nil, List.nil_append, decide_eq_false_iff_not, not_lt]
    exact hlong
  rw [List.takeWhile_cons, this]
  rfl

/-- Behind a first line of 65536 bytes or more a parameter block is not seen: with
every call succeeding, the missing-parameter error is returned and the staged
fragment is empty, whatever the later lines are. -/
theorem prepareParameterCue_long_first_line (join : List GoString → GoString)
    (fs : FileSystem) (fileDir fileName targetSchemaDir : GoString) (l rest : GoString)
    (hsrc : fs.source = some (l ++ '\n' :: rest)) (hio : fs.faults = [])
    (hl : '\n' ∉ l) (hlong : maxScanTokenSize ≤ byteLength l) :
    (prepareParameterCue join fs fileDir fileName targetSchemaDir).1 =
        some (missingParameterError (join [fileDir, fileName])) ∧
      (prepareParameterCue join fs fileDir fileName targetSchemaDir).2.staged = some [] := by
  rw [prepareParameterCue_eq join fs _ _ _ _ hsrc hio,
    scannerLines_long_first_line l rest hl hlong]
  exact ⟨rfl, rfl⟩

/-- When the staging directory is absent and `os.Mkdir` fails, `prepareParameterCue`
returns that error and leaves the file system as it was. -/
theorem prepareParameterCue_mkdir_fails (join : List GoString → GoString)
    (fs : FileSystem) (fileDir fileName targetSchemaDir : GoString) (err : GoError)
    (hstat : fs.failure .statDir = none) (hdir : fs.schemaDir = false)
    (hmk : fs.failure .mkdir = some err) :
    prepareParameterCue join fs fileDir fileName targetSchemaDir = (some err, fs) := by
  simp [prepareParameterCue, hstat, hdir, hmk]

/-! ## Properties of the schema normaliser -/

/-- C1, as stated, fails. On a node whose description is `+usa+usage=ge=` the first
call deletes the inner marker and leaves `+usage=`, which the second call
deletes in turn: applying the normaliser twice differs from applying it once. -/
theorem fixOpenAPISchema_twice_ne_once :
    fixOpenAPISchema [] (describedNode "+usa+usage=ge=".toList) =
        some (describedNode "+usage=".toList) ∧
      fixOpenAPISchema [] (describedNode "+usage=".toList) = some (describedNode []) ∧
      (fixOpenAPISchema [] (describedNode "+usa+usage=ge=".toList)).bind
          (fixOpenAPISchema []) ≠
        fixOpenAPISchema [] (describedNode "+usa+usage=ge=".toList) := by
  refine ⟨rfl, rfl, ?_⟩
  intro h
  have h2 : some (describedNode []) = some (describedNode "+usage=".toList) := h
  have h3 := congrArg (Option.map Schema.description) h2
  exact absurd h3 (by decide)

/-- C1, amended. Whenever a call of the normaliser succeeds, a second call on the
result returns that same tree (titles and descriptions alike) if and only if
no description that the normaliser visits in the result still contains the
usage marker `+usage=`. -/
theorem fixOpenAPISchema_twice_eq_once_iff (n : GoString) (s s' : Schema)
    (h : fixOpenAPISchema n s = some s') :
    fixOpenAPISchema n s' = some s' ↔
      ∀ d ∈ visitedDescriptions s', stringsContains d UsageTag = false :=
  fix_again_schema s n s' h

/-- Witness for C1, amended: the object schema with `cmd` and `args`. -/
theorem fixOpenAPISchema_twice_eq_once_iff_witness :
    fixOpenAPISchema [] cmdArgsSchema = some cmdArgsSchemaFixed ∧
      (fixOpenAPISchema [] cmdArgsSchemaFixed = some cmdArgsSchemaFixed ↔
        ∀ d ∈ visitedDescriptions cmdArgsSchemaFixed,
          stringsContains d UsageTag = false) :=
  ⟨rfl, fixOpenAPISchema_twice_eq_once_iff [] cmdArgsSchema cmdArgsSchemaFixed rfl⟩

/-- C4, as stated, fails. The description `+usage=\n+sh\n+shortort` (with the
two-character backslash-n of `ShortTag`) contains the usage marker, and after
normalisation it is `\n+short`, which contains the short-alias marker: deleting
the inner occurrence joined the text around it into a new one. -/
theorem fixOpenAPISchema_leaves_marker :
    stringsContains (describedNode "+usage=\\n+sh\\n+shortort".toList).description
        UsageTag = true ∧
      fixOpenAPISchema [] (describedNode "+usage=\\n+sh\\n+shortort".toList) =
        some (describedNode "\\n+short".toList) ∧
      stringsContains (describedNode "\\n+short".toList).description ShortTag = true :=
  ⟨by decide, rfl, by decide⟩

/-- C4, amended. For every node whose description contains the usage marker, the
new description is the old one after one left-to-right deletion pass for
`+usage=` followed by one for `ShortTag`; and it contains neither marker if and
only if no deletion joins the text on its two sides into a new marker: joining
the pieces kept by the first pass makes no `+usage=`, and joining the pieces
kept by the second pass makes neither a `+usage=` nor a `ShortTag`. -/
theorem fixOpenAPISchema_strips_markers (n : GoString) (s s' : Schema)
    (h : fixOpenAPISchema n s = some s')
    (hu : stringsContains s.description UsageTag = true) :
    s'.description = replaceScan ShortTag [] 0 (replaceScan UsageTag [] 0 s.description) ∧
      ((stringsContains s'.description UsageTag = false ∧
          stringsContains s'.description ShortTag = false) ↔
        (joinsInto UsageTag (scanPieces UsageTag 0 s.description) = false ∧
          joinsInto UsageTag
            (scanPieces ShortTag 0 (replaceScan UsageTag [] 0 s.description)) = false ∧
          joinsInto ShortTag
            (scanPieces ShortTag 0 (replaceScan UsageTag [] 0 s.description)) = false)) := by
  have hd : s'.description =
      replaceScan ShortTag [] 0 (replaceScan UsageTag [] 0 s.description) := by
    rw [(fix_fields n s s' h).2.1, fixDescription_of_contains _ hu]
  refine ⟨hd, ?_⟩
  rw [hd]
  exact fixDescription_clean_iff s.description

/-- Witness for C4, amended: the description `+usage=do X\n+shortdo` (with the
two-character backslash-n of `ShortTag`) becomes `do Xdo`, no deletion joins
text into a marker, and `do Xdo` contains neither marker. -/
theorem fixOpenAPISchema_strips_markers_witness :
    fixOpenAPISchema [] (describedNode "+usage=do X\\n+shortdo".toList) =
        some (describedNode "do Xdo".toList) ∧
      stringsContains "do Xdo".toList UsageTag = false ∧
      stringsContains "do Xdo".toList ShortTag = false :=
  ⟨rfl,
    (fixOpenAPISchema_strips_markers [] (describedNode "+usage=do X\\n+shortdo".toList)
      (describedNode "do Xdo".toList) rfl (by decide)).2.mpr (by decide)⟩

/-- C5. When the description of a node does not contain the usage marker, a
successful call of the normaliser leaves the description of that node as it
was, whether or not it contains the short-alias marker. -/
theorem fixOpenAPISchema_keeps_untagged_description (n : GoString) (s s' : Schema)
    (h : fixOpenAPISchema n s = some s')
    (hu : stringsContains s.description UsageTag = false) :
    s'.description = s.description := by
  rw [(fix_fields n s s' h).2.1, fixDescription_of_not_contains _ hu]

/-- Witness for C5: a description that contains only the short-alias marker. -/
theorem fixOpenAPISchema_keeps_untagged_description_witness :
    stringsContains "image\\n+short=i".toList ShortTag = true ∧
      fixOpenAPISchema "image".toList (describedNode "image\\n+short=i".toList) =
        some (.mk "string".toList "image".toList "image\\n+short=i".toList .nil .nil) ∧
      (Schema.mk "string".toList "image".toList "image\\n+short=i".toList .nil .nil).description =
        (describedNode "image\\n+short=i".toList).description :=
  ⟨by decide, rfl,
    fixOpenAPISchema_keeps_untagged_description "image".toList
      (describedNode "image\\n+short=i".toList)
      (.mk "string".toList "image".toList "image\\n+short=i".toList .nil .nil) rfl (by decide)⟩

/-- C6. After a successful call of the normaliser on an object node, the property
map has the same keys in the same order, every property child that is not an
object and has a non-empty key has that key as title, and the item schema of
every array-typed property child has the title it had before. -/
theorem fixOpenAPISchema_titles_of_properties (name : GoString) (s s' : Schema)
    (hobj : s.type = "object".toList) (h : fixOpenAPISchema name s = some s') :
    List.Forall₂ PropertyFixed s.properties.toList s'.properties.toList := by
  have hp := fixProperties_forall₂ _ _ (fix_properties_of_object name s s' hobj h)
  refine hp.imp ?_
  rintro ⟨k, v⟩ ⟨k', v'⟩ ⟨hk, hv⟩
  simp only at hk hv
  refine ⟨hk, ?_⟩
  cases v with
  | nil => simp [fixSchemaRef] at hv
  | ref child =>
    rw [fixSchemaRef_ref] at hv
    obtain ⟨child', hchild, rfl⟩ := Option.map_eq_some'.mp hv
    refine ⟨child, child', rfl, rfl, ?_, ?_⟩
    · intro hno hne
      have := (fix_fields k child child' hchild).2.2.1 hno
      rw [this]
      simp [fixTitle, hne]
    · intro harr
      obtain ⟨item, item', h1, h2, h3⟩ := fix_items_of_array k child child' harr hchild
      exact ⟨item, item', h1, h2, fix_title_of_empty_name item item' h3⟩

/-- Witness for C6: with the properties `cmd` (a string) and `args` (an array of
strings), `cmd` gets the title `cmd`, `args` the title `args`, and the title
of the item schema of `args` stays unset. -/
theorem fixOpenAPISchema_titles_of_properties_witness :
    fixOpenAPISchema [] cmdArgsSchema = some cmdArgsSchemaFixed ∧
      cmdArgsSchemaFixed.properties.toList =
        [("cmd".toList, .ref (.mk "string".toList "cmd".toList "the command".toList .nil .nil)),
         ("args".toList, .ref (.mk "array".toList "args".toList [] .nil
            (.ref (.mk "string".toList [] [] .nil .nil))))] ∧
      List.Forall₂ PropertyFixed cmdArgsSchema.properties.toList
        cmdArgsSchemaFixed.properties.toList :=
  ⟨rfl, rfl, fixOpenAPISchema_titles_of_properties [] cmdArgsSchema cmdArgsSchemaFixed rfl rfl⟩

/-- C9, the failing input. On an array-typed node whose item schema is absent
(`Items` is nil) the call does not complete: line 165 dereferences the nil
pointer, whatever the inherited name and the other fields are. -/
theorem fixOpenAPISchema_array_without_items (name title description : GoString)
    (properties : Properties) :
    fixOpenAPISchema name (.mk "array".toList title description properties .nil) = none :=
  rfl

/-! ## Properties of the fragment extractor and of the reference injector -/

/-- C2, as stated, fails. In a document with two lines that open a parameter
block, with every call succeeding, both lines are rewritten, not only the
first. -/
theorem prepareParameterCue_rewrites_second_match :
    (∃ l ∈ documentLines "parameter: \x7b\nparameter: \x7b\n".toList,
        opensParameterBlock l = true) ∧
      (prepareParameterCue slashJoin
          ⟨some "parameter: \x7b\nparameter: \x7b\n".toList, true, none, [], 0⟩
          "caps".toList "web.cue".toList "caps/openapi".toList).2.staged =
        some ("parameter: #parameter\n#parameter: \x7b\n".toList ++
          "parameter: #parameter\n#parameter: \x7b\n".toList) ∧
      (prepareParameterCue slashJoin
          ⟨some "parameter: \x7b\nparameter: \x7b\n".toList, true, none, [], 0⟩
          "caps".toList "web.cue".toList "caps/openapi".toList).2.staged ≠
        some (joinLines
          (rewriteFirstLine (documentLines "parameter: \x7b\nparameter: \x7b\n".toList))) :=
  ⟨⟨"parameter: \x7b".toList, by decide, by decide⟩, by decide, by decide⟩

/-- C2, amended. Take a definition document that can be opened, with fewer than
65536 bytes on each line, in which at least one line opens the parameter block
and the regular expression matches no other kind of line, and let no call
into the operating system fail. Then `prepareParameterCue` returns no error,
and the staged fragment it writes is the document with every line that opens
the parameter block replaced by the two lines `parameter: #parameter` and `#`
followed by the line; every other line is emitted unchanged, in the original
order, and each line ends with a newline. -/
theorem prepareParameterCue_staged_content (join : List GoString → GoString)
    (fs : FileSystem) (fileDir fileName targetSchemaDir : GoString) (content : GoString)
    (hsrc : fs.source = some content) (hio : fs.faults = [])
    (hshort : ∀ l ∈ rawLines content, byteLength l < maxScanTokenSize)
    (hshape : ∀ l ∈ documentLines content,
      MatchString l = true → opensParameterBlock l = true)
    (hopen : ∃ l ∈ documentLines content, opensParameterBlock l = true) :
    (prepareParameterCue join fs fileDir fileName targetSchemaDir).1 = none ∧
      (prepareParameterCue join fs fileDir fileName targetSchemaDir).2.staged =
        some (joinLines (rewriteOpening (documentLines content))) := by
  have hlines := scannerLines_eq_documentLines content hshort
  have hany : (documentLines content).any MatchString = true := by
    obtain ⟨l, hl, ho⟩ := hopen
    exact List.any_eq_true.mpr ⟨l, hl, matchString_of_opens l ho⟩
  rw [prepareParameterCue_eq join fs fileDir fileName targetSchemaDir content hsrc hio,
    hlines, hany, rewriteMatched_eq_rewriteOpening _ hshape]
  exact ⟨rfl, rfl⟩

/-- Witness for C2, amended: a three-line document over a stale staged file. -/
theorem prepareParameterCue_staged_content_witness :
    (prepareParameterCue slashJoin
        ⟨some "output: \x7b\x7d\nparameter: \x7b\n\x7d\n".toList, false,
          some "stale".toList, [], 0⟩
        "caps".toList "web.cue".toList "caps/openapi".toList).1 = none ∧
      (prepareParameterCue slashJoin
        ⟨some "output: \x7b\x7d\nparameter: \x7b\n\x7d\n".toList, false,
          some "stale".toList, [], 0⟩
        "caps".toList "web.cue".toList "caps/openapi".toList).2.staged =
        some "output: \x7b\x7d\nparameter: #parameter\n#parameter: \x7b\n\x7d\n".toList :=
  prepareParameterCue_staged_content slashJoin
    ⟨some "output: \x7b\x7d\nparameter: \x7b\n\x7d\n".toList, false, some "stale".toList, [], 0⟩
    "caps".toList "web.cue".toList "caps/openapi".toList
    "output: \x7b\x7d\nparameter: \x7b\n\x7d\n".toList rfl rfl (by decide) (by decide)
    ⟨"parameter: \x7b".toList, by decide, by decide⟩

/-- C3. When the source can be opened and no call into the operating system
fails, `prepareParameterCue` returns the missing-parameter error exactly when
no line that the scanner yields matches the regular expression (no line is
rewritten), and returns no error exactly when some such line matches; a
document in which no line contains `parameter:` gets that error; and the
message of the error contains the path of the source file. -/
theorem prepareParameterCue_error_iff (join : List GoString → GoString)
    (fs : FileSystem) (fileDir fileName targetSchemaDir : GoString) (content : GoString)
    (hsrc : fs.source = some content) (hio : fs.faults = []) :
    ((prepareParameterCue join fs fileDir fileName targetSchemaDir).1 =
          some (missingParameterError (join [fileDir, fileName])) ↔
        ∀ l ∈ scannerLines content, MatchString l = false) ∧
      ((prepareParameterCue join fs fileDir fileName targetSchemaDir).1 = none ↔
        ∃ l ∈ scannerLines content, MatchString l = true) ∧
      ((∀ l ∈ scannerLines content, stringsContains l parameterKey = false) →
        (prepareParameterCue join fs fileDir fileName targetSchemaDir).1 =
          some (missingParameterError (join [fileDir, fileName]))) ∧
      ((∀ l ∈ documentLines content, stringsContains l parameterKey = false) →
        (prepareParameterCue join fs fileDir fileName targetSchemaDir).1 =
          some (missingParameterError (join [fileDir, fileName]))) ∧
      ∃ message, missingParameterError (join [fileDir, fileName]) = .errorf message ∧
        stringsContains message (join [fileDir, fileName]) = true := by
  rw [prepareParameterCue_eq join fs fileDir fileName targetSchemaDir content hsrc hio]
  have hall : (scannerLines content).any MatchString = false ↔
      ∀ l ∈ scannerLines content, MatchString l = false := by
    simp [List.any_eq_false]
  have hex : (scannerLines content).any MatchString = true ↔
      ∃ l ∈ scannerLines content, MatchString l = true :=
    List.any_eq_true
  have hkey : (∀ l ∈ scannerLines content, stringsContains l parameterKey = false) →
      (scannerLines content).any MatchString = false := by
    intro hno
    rw [hall]
    intro l hl
    by_contra hm
    rw [Bool.not_eq_false] at hm
    have h1 := parameterKey_infix_of_matchString l hm
    have h2 := hno l hl
    rw [stringsContains_eq_false_iff] at h2
    exact h2 h1
  refine ⟨?_, ?_, ?_, ?_, ?_⟩
  · rw [← hall]
    cases (scannerLines content).any MatchString <;> simp
  · rw [← hex]
    cases (scannerLines content).any MatchString <;> simp
  · intro hno
    rw [hkey hno]
    rfl
  · intro hno
    rw [hkey (fun l hl => hno l (mem_documentLines_of_mem_scannerLines content l hl))]
    rfl
  · refine ⟨_, rfl, ?_⟩
    rw [stringsContains_iff]
    exact ⟨_, _, rfl⟩

/-- Witness for C3: a document without a parameter block. -/
theorem prepareParameterCue_error_iff_witness :
    (prepareParameterCue slashJoin ⟨some "output: \x7b\x7d\n".toList, true, none, [], 0⟩
        "caps".toList "web.cue".toList "caps/openapi".toList).1 =
      some (.errorf "cue file caps/web.cue doesn't contain section `parmeter`".toList) :=
  (prepareParameterCue_error_iff slashJoin ⟨some "output: \x7b\x7d\n".toList, true, none, [], 0⟩
    "caps".toList "web.cue".toList "caps/openapi".toList "output: \x7b\x7d\n".toList
    rfl rfl).1.mpr (by decide)

/-- C8, the failing input. Lines in which other text precedes `parameter:` match
the unanchored regular expression and are rewritten, not copied unchanged. -/
theorem prepareParameterCue_rewrites_embedded_key :
    MatchString "xparameter: \x7b".toList = true ∧
      MatchString "// parameter: \x7b".toList = true ∧
      prepareParameterCue slashJoin
          ⟨some "xparameter: \x7b\n// parameter: \x7b\n".toList, true, none, [], 0⟩
          "caps".toList "web.cue".toList "caps/openapi".toList =
        (none,
          ⟨some "xparameter: \x7b\n// parameter: \x7b\n".toList, true,
            some ("parameter: #parameter\n#xparameter: \x7b\n".toList ++
              "parameter: #parameter\n#// parameter: \x7b\n".toList), [], 0⟩) :=
  ⟨by decide, by decide, by decide⟩

/-- The file system after `generateOpenAPISchemaFromCapabilityParameter` when the
capability directory is known, the source can be opened and no call fails. -/
theorem generate_fileSystem (c : Collaborators) (fs : FileSystem) (name dir : GoString)
    (content : GoString) (hdir : c.getCapabilityDir = .ok dir)
    (hsrc : fs.source = some content) (hio : fs.faults = []) :
    (generateOpenAPISchemaFromCapabilityParameter c fs name).2 =
      { source := some content, schemaDir := true,
        staged := some (if (scannerLines content).any MatchString
          then joinLines (rewriteMatched (scannerLines content)) ++ c.baseTemplate
          else joinLines (rewriteMatched (scannerLines content))),
        faults := [], partialWrite := fs.partialWrite } := by
  unfold generateOpenAPISchemaFromCapabilityParameter
  simp only [hdir]
  rw [prepareParameterCue_eq c.join fs dir _ _ content hsrc hio]
  cases (scannerLines content).any MatchString <;>
    simp [appendCueReference, FileSystem.failure]

/-- C7, as stated, fails. When `os.Truncate` fails on an existing staged file,
`prepareParameterCue` returns that error before it writes anything: for the
same source document the staged content afterwards is the previous content,
whatever it was. -/
theorem prepareParameterCue_keeps_stale_content :
    (readOnlyStaged "first".toList).source = (readOnlyStaged "second".toList).source ∧
      (prepareParameterCue slashJoin (readOnlyStaged "first".toList)
          "caps".toList "webservice.cue".toList "caps/openapi".toList).2.staged =
        some "first".toList ∧
      (prepareParameterCue slashJoin (readOnlyStaged "second".toList)
          "caps".toList "webservice.cue".toList "caps/openapi".toList).2.staged =
        some "second".toList :=
  ⟨rfl, by decide, by decide⟩

/-- C7, amended. Let the source be opened and no call into the operating system
fail. Then the staged content after `prepareParameterCue` depends on the
source document alone: any file system with the same source document gives
the same staged content, whatever its staged file held before and whatever
the paths are. Running the extraction followed by `appendCueReference` a
second time leaves the staged content of the first run. And when the
extraction returns no error, that content is what the extraction wrote
followed by one copy of the reference template. -/
theorem staged_content_truncation_invariant (c : Collaborators) (fs : FileSystem)
    (name : GoString) (content : GoString)
    (hsrc : fs.source = some content) (hio : fs.faults = []) :
    (∀ (fs' : FileSystem) (fileDir fileName targetSchemaDir : GoString)
        (fileDir' fileName' targetSchemaDir' : GoString),
        fs'.source = some content → fs'.faults = [] →
        (prepareParameterCue c.join fs' fileDir' fileName' targetSchemaDir').2.staged =
          (prepareParameterCue c.join fs fileDir fileName targetSchemaDir).2.staged) ∧
      (generateOpenAPISchemaFromCapabilityParameter c
          (generateOpenAPISchemaFromCapabilityParameter c fs name).2 name).2.staged =
        (generateOpenAPISchemaFromCapabilityParameter c fs name).2.staged ∧
      (∀ dir : GoString, c.getCapabilityDir = .ok dir →
        (prepareParameterCue c.join fs dir (name ++ ".cue".toList)
          (c.join [dir, OpenAPISchemaDir])).1 = none →
        ∃ extracted : GoString,
          (prepareParameterCue c.join fs dir (name ++ ".cue".toList)
            (c.join [dir, OpenAPISchemaDir])).2.staged = some extracted ∧
          (generateOpenAPISchemaFromCapabilityParameter c fs name).2.staged =
            some (extracted ++ c.baseTemplate)) := by
  refine ⟨?_, ?_, ?_⟩
  · intro fs' fileDir fileName targetSchemaDir fileDir' fileName' targetSchemaDir' hsrc' hio'
    rw [prepareParameterCue_eq c.join fs _ _ _ content hsrc hio,
      prepareParameterCue_eq c.join fs' _ _ _ content hsrc' hio']
  · cases hdir : c.getCapabilityDir with
    | error err => simp [generateOpenAPISchemaFromCapabilityParameter, hdir]
    | ok dir =>
      rw [generate_fileSystem c fs name dir content hdir hsrc hio]
      rw [generate_fileSystem c _ name dir content hdir rfl rfl]
  · intro dir hdir hok
    rw [generate_fileSystem c fs name dir content hdir hsrc hio]
    rw [prepareParameterCue_eq c.join fs _ _ _ content hsrc hio] at hok ⊢
    refine ⟨_, rfl, ?_⟩
    cases hany : (scannerLines content).any MatchString
    · rw [hany] at hok
      simp at hok
    · rfl

/-- Witness for C7, amended: two derivations over a stale staged fragment. -/
theorem staged_content_truncation_invariant_witness :
    (generateOpenAPISchemaFromCapabilityParameter (sampleCollaborators ⟨[]⟩)
        (generateOpenAPISchemaFromCapabilityParameter (sampleCollaborators ⟨[]⟩)
          sampleFileSystem "webservice".toList).2 "webservice".toList).2.staged =
      (generateOpenAPISchemaFromCapabilityParameter (sampleCollaborators ⟨[]⟩)
        sampleFileSystem "webservice".toList).2.staged ∧
    (generateOpenAPISchemaFromCapabilityParameter (sampleCollaborators ⟨[]⟩)
        sampleFileSystem "webservice".toList).2.staged =
      some ("parameter: #parameter\n#parameter: \x7b image: string \x7d\n".toList ++
        "context: _\n".toList) :=
  ⟨(staged_content_truncation_invariant (sampleCollaborators ⟨[]⟩) sampleFileSystem
      "webservice".toList _ rfl rfl).2.1, by decide⟩

/-! ## Properties of the orchestrator -/

/-- Whenever the compiled document parses but has no `parameter` entry under
`components.schemas`, `GetDefinition` panics. -/
theorem getDefinition_panic_of_missing_entry (c : Collaborators) (fs fs1 : FileSystem)
    (name : GoString) (openAPISchema : Bytes) (swagger : Swagger)
    (hgen : generateOpenAPISchemaFromCapabilityParameter c fs name = (.ok openAPISchema, fs1))
    (hload : c.loadSwaggerFromData openAPISchema = .ok swagger)
    (hmissing : swagger.schemas.lookup "parameter".toList = none) :
    GetDefinition c fs name = (.panic, fs1) := by
  unfold GetDefinition
  simp only [hgen, hload, lookupParameter, hmissing]

/-- C10, the failing input. All stages succeed and the parsed document has no
schemas at all: `GetDefinition` does not return an error, it panics (line 55
dereferences the nil `schemaRef`). -/
theorem GetDefinition_panics_without_parameter_entry :
    (GetDefinition (sampleCollaborators ⟨[]⟩) sampleFileSystem "webservice".toList).1 =
      Outcome.panic :=
  congrArg Prod.fst
    (getDefinition_panic_of_missing_entry (sampleCollaborators ⟨[]⟩) sampleFileSystem _
      "webservice".toList [] ⟨[]⟩ rfl rfl rfl)

end Serverlib
